import Mathlib

/-
Verification development for the obsidian-chat-with-pdf plugin.

The definitions below are shallow embeddings of the plugin's TypeScript
source (src/main.ts, src/chat-view.ts and the unnamed revisions of the
same files).  JavaScript strings are modelled as Lean `String`/`List Char`,
JavaScript numbers as `ℚ` where the code only performs exact decimal
arithmetic and as `ℝ` where square roots are involved (the similarity
engine).  Asynchronous code is modelled by explicit state passing: a run
of the ingestion pipeline is a pure function from the plugin state and an
environment (PDF text, embedding oracle, injected I/O failures) to the
final state plus the ordered list of emitted `ProcessingState` values.
-/

/- ===================== JS string primitives ===================== -/

/-- Model of the character class `\s` of JavaScript regular expressions
(also the set of characters removed by `String.prototype.trim`):
WhiteSpace plus LineTerminator code points. -/
def isJsSpace (c : Char) : Bool :=
  c == ' ' || c == '\t' || c == '\n' || c == '\r' || c == '\x0b' || c == '\x0c' ||
  c.toNat == 0xa0 || c.toNat == 0x1680 ||
  (0x2000 ≤ c.toNat && c.toNat ≤ 0x200a) ||
  c.toNat == 0x2028 || c.toNat == 0x2029 || c.toNat == 0x202f ||
  c.toNat == 0x205f || c.toNat == 0x3000 || c.toNat == 0xfeff

/-- Model of the character class `\d` (ASCII decimal digits). -/
def isDigitCh (c : Char) : Bool :=
  48 ≤ c.toNat && c.toNat ≤ 57

/-- Value of `parseInt(s, 10)` on a string of decimal digits
(also the value JSON number parsing assigns to a digit run). -/
def digitsToNat (l : List Char) : Nat :=
  l.foldl (fun a c => 10 * a + (c.toNat - 48)) 0

/-- Model of `String.prototype.trim`: drop `isJsSpace` characters from
both ends. -/
def jsTrim (l : List Char) : List Char :=
  ((l.dropWhile isJsSpace).reverse.dropWhile isJsSpace).reverse

/-- `jsTrim` lifted to `String`. -/
def jsTrimStr (s : String) : String :=
  ⟨jsTrim s.data⟩

/-- Consume an exact literal from the head of the input
(used to model matching the fixed part of a regular expression). -/
def dropLit : List Char → List Char → Option (List Char)
  | [], l => some l
  | _ :: _, [] => none
  | p :: ps, c :: cs => if c = p then dropLit ps cs else none

/- ===================== the Chunker (splitIntoChunks) ===================== -/

/-- The fixed opening text of the page-marker pattern `\[Page \d+\]\n`. -/
def pageTagOpen : List Char := '[' :: 'P' :: 'a' :: 'g' :: 'e' :: [' ']

/-- Match the regular expression `\[Page \d+\]\n` at the head of the input.
`\d+` is greedy and no backtracking can succeed where the greedy run fails
(a digit can never match `]`), so the match is the maximal digit run.
Returns the matched text and the rest of the input. -/
def matchMarker (l : List Char) : Option (List Char × List Char) :=
  match dropLit pageTagOpen l with
  | none => none
  | some l₁ =>
    let ds := l₁.takeWhile isDigitCh
    match l₁.dropWhile isDigitCh with
    | ']' :: '\n' :: rest =>
      if ds.isEmpty then none
      else some (pageTagOpen ++ ds ++ ']' :: ['\n'], rest)
    | _ => none

/-- Leftmost match of `\[Page \d+\]\n`: try to match at every position from
the left, as the JS regex engine does.  Returns (text before the match,
matched text, text after the match). -/
def findFirst : List Char → Option (List Char × List Char × List Char)
  | [] => none
  | c :: cs =>
    match matchMarker (c :: cs) with
    | some (m, rest) => some ([], m, rest)
    | none =>
      match findFirst cs with
      | none => none
      | some (p, m, r) => some (c :: p, m, r)

/-- One step of `String.prototype.split` with a capturing delimiter:
emit the piece before the match and the match itself, continue after it.
`fuel` bounds the number of delimiter occurrences; the wrapper passes
`l.length + 1`, which always suffices because every match is non-empty. -/
def splitKeepGo : Nat → List Char → List (List Char)
  | 0, l => [l]
  | fuel + 1, l =>
    match findFirst l with
    | none => [l]
    | some (p, m, r) => p :: m :: splitKeepGo fuel r

/-- Model of `fullText.split(/(\[Page \d+\]\n)/)`: the pieces between
matches interleaved with the (captured) matches themselves. -/
def splitKeep (l : List Char) : List (List Char) :=
  splitKeepGo (l.length + 1) l

/-- Split a reversed-at-the-last-newline view of a whitespace run:
`run = w1 ++ '\n' :: w2` with no `'\n'` in `w2`, if the run contains a
newline at all. -/
def lastNlSplit (run : List Char) : Option (List Char × List Char) :=
  match run.reverse.dropWhile (fun c => !(c == '\n')) with
  | '\n' :: w1r => some (w1r.reverse, (run.reverse.takeWhile (fun c => !(c == '\n'))).reverse)
  | _ => none

/-- Match the regular expression `\n\s*\n` at the head of the input.
The greedy `\s*` backtracks to the last `'\n'` inside the maximal
whitespace run, so the text after the match is whatever follows that
newline.  Returns the rest of the input after the matched delimiter. -/
def matchBreak (l : List Char) : Option (List Char) :=
  match l with
  | '\n' :: cs =>
    let run := cs.takeWhile isJsSpace
    let after := cs.dropWhile isJsSpace
    match lastNlSplit run with
    | some (_, w2) => some (w2 ++ after)
    | none => none
  | _ => none

/-- Scan for `\n\s*\n` delimiters, accumulating the current piece in
reverse.  `fuel` bounds the scan length; the wrapper passes
`l.length + 1`. -/
def splitParasGo : Nat → List Char → List Char → List (List Char)
  | 0, acc, l => [acc.reverse ++ l]
  | _ + 1, acc, [] => [acc.reverse]
  | fuel + 1, acc, c :: cs =>
    match matchBreak (c :: cs) with
    | some rest => acc.reverse :: splitParasGo fuel [] rest
    | none => splitParasGo fuel (c :: acc) cs

/-- Model of `pageText.split(/\n\s*\n/)` (delimiters dropped). -/
def splitParas (l : List Char) : List (List Char) :=
  splitParasGo (l.length + 1) [] l

/-- Match `\[Page (\d+)\]` at the head of the input and return the
captured digit run (note: no trailing newline in this pattern, which is
the one used by `pageHeader.match`). -/
def matchPage (l : List Char) : Option (List Char) :=
  match dropLit pageTagOpen l with
  | none => none
  | some l₁ =>
    let ds := l₁.takeWhile isDigitCh
    match l₁.dropWhile isDigitCh with
    | ']' :: _ => if ds.isEmpty then none else some ds
    | _ => none

/-- Leftmost match of `\[Page (\d+)\]`, returning the captured digits. -/
def findPage : List Char → Option (List Char)
  | [] => none
  | c :: cs =>
    match matchPage (c :: cs) with
    | some ds => some ds
    | none => findPage cs

/-- Model of
`pageMatch = pageHeader.match(/\[Page (\d+)\]/); pageMatch ? parseInt(pageMatch[1], 10) : 0`. -/
def extractPageNum (hdr : List Char) : Nat :=
  match findPage hdr with
  | some ds => digitsToNat ds
  | none => 0

/-- A chunk as produced by `splitIntoChunks`: trimmed paragraph text plus
the page number of the page header it falls under. -/
structure RawChunk where
  text : String
  page : Nat
deriving Repr, DecidableEq

/-- The split result paired up: element 0 with 1, 2 with 3, … (the loop
`for (let i = 0; i < pageContents.length; i += 2)`). -/
def pairUp {α : Type} : List α → List (α × α)
  | a :: b :: rest => (a, b) :: pairUp rest
  | _ => []

/-- The (page header, page body) pairs of the chunker: split on the
capturing page-marker pattern, drop the text before the first marker
(`.slice(1)`), and pair headers with bodies. -/
def pagePairs (s : String) : List (List Char × List Char) :=
  pairUp ((splitKeep s.data).tail)

/-- The chunks contributed by one (header, body) pair: split the body into
paragraphs, keep those whose trimmed length exceeds 100, and emit each
trimmed paragraph tagged with the page number from the header. -/
def chunksOfPair (pr : List Char × List Char) : List RawChunk :=
  ((splitParas pr.2).filter (fun p => 100 < (jsTrim p).length)).map
    (fun p => ⟨⟨jsTrim p⟩, extractPageNum pr.1⟩)

/-- Model of `splitIntoChunks` (src/main.ts and both unnamed main-file
revisions contain the identical function). -/
def splitIntoChunks (s : String) : List RawChunk :=
  (pagePairs s).flatMap chunksOfPair

set_option maxRecDepth 40000

example :
    splitIntoChunks ⟨'[' :: 'P' :: 'a' :: 'g' :: 'e' :: ' ' :: '2' :: ']' :: '\n' :: List.replicate 150 'a'⟩ =
      [⟨⟨List.replicate 150 'a'⟩, 2⟩] := by
  decide

example : splitIntoChunks "no markers here at all" = [] := by
  decide

/- ===================== Chunker lemmas ===================== -/

lemma dropLit_spec : ∀ (p l r : List Char), dropLit p l = some r → l = p ++ r := by
  intro p
  induction p with
  | nil => intro l r h; simpa [dropLit] using h
  | cons a ps ih =>
    intro l r h
    cases l with
    | nil => simp [dropLit] at h
    | cons c cs =>
      simp only [dropLit] at h
      split at h
      · next hca => subst hca; simpa using ih cs r h
      · exact absurd h (by simp)

lemma matchMarker_spec {l m r : List Char} (h : matchMarker l = some (m, r)) :
    l = m ++ r ∧ m ≠ [] := by
  unfold matchMarker at h
  cases h₁ : dropLit pageTagOpen l with
  | none => rw [h₁] at h; simp at h
  | some l₁ =>
    rw [h₁] at h
    simp only at h
    split at h
    · next rest h₂ =>
      split at h
      · simp at h
      · obtain ⟨hm, hr⟩ := Prod.mk.injEq .. ▸ Option.some.injEq .. ▸ h
        have hl : l = pageTagOpen ++ l₁ := dropLit_spec _ _ _ h₁
        have hsplit : l₁.takeWhile isDigitCh ++ l₁.dropWhile isDigitCh = l₁ :=
          List.takeWhile_append_dropWhile ..
        constructor
        · rw [hl, ← hsplit, h₂, ← hm, ← hr]
          simp
        · rw [← hm]; simp [pageTagOpen]
    · simp at h

lemma findFirst_spec : ∀ {l p m r : List Char}, findFirst l = some (p, m, r) →
    l = p ++ m ++ r ∧ m ≠ [] ∧ matchMarker (m ++ r) = some (m, r) := by
  intro l
  induction l with
  | nil => intro p m r h; simp [findFirst] at h
  | cons c cs ih =>
    intro p m r h
    unfold findFirst at h
    cases h₁ : matchMarker (c :: cs) with
    | some mr =>
      rw [h₁] at h
      obtain ⟨mm, rr⟩ := mr
      simp only [Option.some.injEq, Prod.mk.injEq] at h
      obtain ⟨hp, hm, hr⟩ := h
      subst hp hm hr
      obtain ⟨heq, hne⟩ := matchMarker_spec h₁
      refine ⟨by simpa using heq, hne, ?_⟩
      rw [← heq]; exact h₁
    | none =>
      rw [h₁] at h
      cases h₂ : findFirst cs with
      | none => rw [h₂] at h; simp at h
      | some pmr =>
        rw [h₂] at h
        obtain ⟨p', m', r'⟩ := pmr
        simp only [Option.some.injEq, Prod.mk.injEq] at h
        obtain ⟨hp, hm, hr⟩ := h
        obtain ⟨heq, hne, hmm⟩ := ih h₂
        subst hm hr
        refine ⟨?_, hne, hmm⟩
        rw [← hp]; simp [heq]

lemma findFirst_rest_lt {l p m r : List Char} (h : findFirst l = some (p, m, r)) :
    r.length < l.length := by
  obtain ⟨heq, hne, -⟩ := findFirst_spec h
  have : m.length ≠ 0 := by simpa using hne
  rw [heq]
  simp only [List.length_append]
  omega

lemma splitKeepGo_congr : ∀ (f₁ f₂ : Nat) (l : List Char),
    l.length < f₁ → l.length < f₂ → splitKeepGo f₁ l = splitKeepGo f₂ l := by
  intro f₁
  induction f₁ with
  | zero => intro f₂ l h; omega
  | succ a ih =>
    intro f₂ l h₁ h₂
    cases f₂ with
    | zero => omega
    | succ b =>
      simp only [splitKeepGo]
      cases h : findFirst l with
      | none => rfl
      | some pmr =>
        obtain ⟨p, m, r⟩ := pmr
        have hr : r.length < l.length := findFirst_rest_lt h
        have hgoal : splitKeepGo a r = splitKeepGo b r := ih b r (by omega) (by omega)
        simp [hgoal]

lemma jsTrim_eq_rdrop (l : List Char) :
    jsTrim l = List.rdropWhile isJsSpace (l.dropWhile isJsSpace) := rfl

lemma jsTrim_idem (l : List Char) : jsTrim (jsTrim l) = jsTrim l := by
  rw [jsTrim_eq_rdrop, jsTrim_eq_rdrop]
  have h₀ : List.dropWhile isJsSpace (List.dropWhile isJsSpace l) =
      List.dropWhile isJsSpace l := List.dropWhile_idempotent ..
  have h₁ : List.dropWhile isJsSpace
      (List.rdropWhile isJsSpace (List.dropWhile isJsSpace l)) =
      List.rdropWhile isJsSpace (List.dropWhile isJsSpace l) := by
    rcases hpre : List.rdropWhile isJsSpace (List.dropWhile isJsSpace l) with _ | ⟨a, t⟩
    · simp
    · have hp : List.rdropWhile isJsSpace (List.dropWhile isJsSpace l) <+:
          List.dropWhile isJsSpace l := List.rdropWhile_prefix ..
      rw [hpre] at hp
      obtain ⟨tl, htl⟩ := hp
      have htl' : a :: (t ++ tl) = List.dropWhile isJsSpace l := by simpa using htl
      have hhead : isJsSpace a = false := by
        by_contra hcon
        have ha : isJsSpace a = true := by
          cases hx : isJsSpace a
          · exact absurd hx hcon
          · rfl
        have hstep : List.dropWhile isJsSpace (a :: (t ++ tl)) =
            List.dropWhile isJsSpace (t ++ tl) := by
          simp [List.dropWhile, ha]
        have hdd := h₀
        rw [← htl', hstep] at hdd
        have hle : (List.dropWhile isJsSpace (t ++ tl)).length ≤ (t ++ tl).length :=
          (List.dropWhile_suffix isJsSpace).length_le
        have hlen := congrArg List.length hdd
        simp only [List.length_cons, List.length_append] at hlen hle
        omega
      simp [List.dropWhile, hhead]
  rw [h₁, List.rdropWhile_idempotent]

/-- Claim C3 (chunker postcondition): every chunk emitted by
`splitIntoChunks` has text that (i) is longer than 100 characters,
(ii) is already trimmed (equal to its own trim), and (iii) equals the trim
of a blank-line-separated paragraph of a page body whose trimmed length
exceeds 100; its page is the number extracted from the page header the
paragraph falls under. -/
theorem chunker_postcondition (s : String) (c : RawChunk)
    (hc : c ∈ splitIntoChunks s) :
    100 < c.text.length ∧ c.text = jsTrimStr c.text ∧
    ∃ pr ∈ pagePairs s, c.page = extractPageNum pr.1 ∧
      ∃ para ∈ splitParas pr.2,
        c.text = ⟨jsTrim para⟩ ∧ 100 < (jsTrim para).length := by
  unfold splitIntoChunks at hc
  rw [List.mem_flatMap] at hc
  obtain ⟨pr, hpr, hcp⟩ := hc
  unfold chunksOfPair at hcp
  rw [List.mem_map] at hcp
  obtain ⟨para, hpara, hceq⟩ := hcp
  rw [List.mem_filter] at hpara
  obtain ⟨hmem, hlen⟩ := hpara
  have hlen' : 100 < (jsTrim para).length := by simpa using hlen
  subst hceq
  refine ⟨?_, ?_, pr, hpr, rfl, para, hmem, rfl, hlen'⟩
  · simpa [String.length] using hlen'
  · simp only [jsTrimStr]
    rw [jsTrim_idem]

/-- A closed instance of C3: the 150-character paragraph on page 2 of
a two-marker input yields a single matching chunk. -/
theorem chunker_postcondition_witness :
    (⟨⟨List.replicate 150 'a'⟩, 2⟩ : RawChunk) ∈
      splitIntoChunks ⟨'[' :: 'P' :: 'a' :: 'g' :: 'e' :: ' ' :: '2' :: ']' :: '\n' ::
        List.replicate 150 'a'⟩ ∧
    100 < (⟨⟨List.replicate 150 'a'⟩, 2⟩ : RawChunk).text.length := by
  have hmem : (⟨⟨List.replicate 150 'a'⟩, 2⟩ : RawChunk) ∈
      splitIntoChunks ⟨'[' :: 'P' :: 'a' :: 'g' :: 'e' :: ' ' :: '2' :: ']' :: '\n' ::
        List.replicate 150 'a'⟩ := by decide
  exact ⟨hmem, (chunker_postcondition _ _ hmem).1⟩

/-- The suffix of the input starting at the first page marker
(empty when no marker occurs). -/
def stripToMarker (s : String) : String :=
  match findFirst s.data with
  | none => ""
  | some (_, m, r) => ⟨m ++ r⟩

/-- Whether the input contains a page marker `\[Page \d+\]\n` at all. -/
def hasMarker (s : String) : Bool :=
  (findFirst s.data).isSome

/-- Claim C10 (implicit edge case): text before the first page marker
contributes no chunks — chunking the input equals chunking the suffix
that starts at the first marker — and an input with no page marker at
all (in particular the empty string) yields no chunks. -/
theorem chunker_ignores_text_before_first_marker (s : String) :
    splitIntoChunks s = splitIntoChunks (stripToMarker s) ∧
    (hasMarker s = false → splitIntoChunks s = []) := by
  cases h : findFirst s.data with
  | none =>
    have hsk : splitKeep s.data = [s.data] := by
      unfold splitKeep
      simp [splitKeepGo, h]
    have hnil : splitIntoChunks s = [] := by
      unfold splitIntoChunks pagePairs
      rw [hsk]
      simp [pairUp]
    have hstrip : stripToMarker s = "" := by unfold stripToMarker; rw [h]
    refine ⟨?_, fun _ => hnil⟩
    rw [hnil, hstrip]
    have : findFirst ("" : String).data = none := rfl
    unfold splitIntoChunks pagePairs splitKeep
    simp [splitKeepGo, this, pairUp]
  | some pmr =>
    obtain ⟨p, m, r⟩ := pmr
    obtain ⟨heq, hne, hmm⟩ := findFirst_spec h
    have hr : r.length < s.data.length := findFirst_rest_lt h
    have hffmr : findFirst (m ++ r) = some ([], m, r) := by
      cases hm : m with
      | nil => exact absurd hm hne
      | cons a t =>
        subst hm
        have hmm' : matchMarker (a :: (t ++ r)) = some (a :: t, r) := by
          simpa using hmm
        rw [List.cons_append]
        simp [findFirst, hmm']
    have hsk₁ : splitKeep s.data = p :: m :: splitKeepGo s.data.length r := by
      unfold splitKeep
      simp [splitKeepGo, h]
    have hsk₂ : splitKeep (m ++ r) = [] :: m :: splitKeepGo (m ++ r).length r := by
      unfold splitKeep
      simp [splitKeepGo, hffmr]
    have hmr_len : r.length < (m ++ r).length := by
      have : m.length ≠ 0 := by simpa using hne
      simp only [List.length_append]
      omega
    have hcongr : splitKeepGo s.data.length r = splitKeepGo (m ++ r).length r :=
      splitKeepGo_congr _ _ _ hr hmr_len
    constructor
    · unfold splitIntoChunks pagePairs
      have hdata : (stripToMarker s).data = m ++ r := by
        unfold stripToMarker
        rw [h]
      rw [hdata, hsk₁, hsk₂, hcongr]
      rfl
    · intro hfalse
      unfold hasMarker at hfalse
      rw [h] at hfalse
      simp at hfalse

/-- A closed instance of C10: a marker-free 120-character input chunks
to the empty list and agrees with its (empty) marker suffix. -/
theorem chunker_ignores_text_witness :
    hasMarker ⟨List.replicate 120 'b'⟩ = false ∧
    splitIntoChunks ⟨List.replicate 120 'b'⟩ = [] := by
  have h : hasMarker ⟨List.replicate 120 'b'⟩ = false := by decide
  exact ⟨h, (chunker_ignores_text_before_first_marker _).2 h⟩

/- ===================== Cache key derivation (preparePdf) ===================== -/

/-- The character class `[a-zA-Z0-9]` of the sanitizing regular expression. -/
def isAlnumCh (c : Char) : Bool :=
  (48 ≤ c.toNat && c.toNat ≤ 57) || (65 ≤ c.toNat && c.toNat ≤ 90) ||
  (97 ≤ c.toNat && c.toNat ≤ 122)

/-- Model of `file.path.replace(/[^a-zA-Z0-9]/g, '_')`: every character
outside `[a-zA-Z0-9]` is replaced by an underscore. -/
def sanitizePath (p : String) : String :=
  ⟨p.data.map (fun c => if isAlnumCh c then c else '_')⟩

/-- Model of the cache file name computed by `preparePdf`:
the sanitized path with a `.json` suffix. -/
def cacheFileName (p : String) : String :=
  sanitizePath p ++ ".json"

/-- Modelled from the spec's words for comparison with the code: "strip
all characters outside `[A-Za-z0-9]`", i.e. remove them. -/
def stripNonAlnum (p : String) : String :=
  ⟨p.data.filter isAlnumCh⟩

/-- Claim C7 as stated is false: the code does not strip characters
outside `[A-Za-z0-9]` from the path — it replaces them with `'_'` —
so on the path `"a-b"` the actual cache file name `"a_b.json"` differs
from the strip-derived name `"ab.json"`. -/
theorem cache_key_strip_counterexample :
    cacheFileName "a-b" = "a_b.json" ∧ stripNonAlnum "a-b" ++ ".json" = "ab.json" ∧
    ¬ cacheFileName "a-b" = stripNonAlnum "a-b" ++ ".json" := by
  refine ⟨by decide, by decide, by decide⟩

/-- Claim C7 amended: the cache file name is computed deterministically
from the document path by replacing every character outside
`[A-Za-z0-9]` with an underscore and appending `.json`; consequently two
paths that agree after this transformation map to the same cache file. -/
theorem cache_key_underscore (p : String) :
    cacheFileName p = sanitizePath p ++ ".json" ∧
    (∀ q, sanitizePath p = sanitizePath q → cacheFileName p = cacheFileName q) := by
  refine ⟨rfl, fun q hq => ?_⟩
  unfold cacheFileName
  rw [hq]

/-- A closed instance of the amended C7: the distinct paths `"a-b"` and
`"a.b"` sanitize identically and hence share a cache file name. -/
theorem cache_key_underscore_witness :
    sanitizePath "a-b" = sanitizePath "a.b" ∧ cacheFileName "a-b" = cacheFileName "a.b" := by
  have h : sanitizePath "a-b" = sanitizePath "a.b" := by decide
  exact ⟨h, (cache_key_underscore "a-b").2 "a.b" h⟩

/- ===================== Conversation controller (chat view) ===================== -/

/-- Role tag of a Gemini conversation turn. -/
inductive GeminiRole where
  | user
  | model
deriving Repr, DecidableEq

/-- A conversation turn: a role plus a list of text parts (the chat-view
revision carrying the similarity feature uses text parts only). -/
structure GeminiContent where
  role : GeminiRole
  parts : List String
deriving Repr, DecidableEq

/-- The user turn pushed optimistically by the send handler. -/
def mkUserTurn (t : String) : GeminiContent := ⟨.user, [t]⟩

/-- The model turn appended after a successful answer. -/
def mkModelTurn (t : String) : GeminiContent := ⟨.model, [t]⟩

/-- Outcome of the awaited chat request, as observed by the handler:
a successful response with at least one candidate, a response with zero
candidates (content-safety block), or a thrown transport/parse failure.
`connected` records whether the answer bubble element is still attached
to the DOM when the response arrives (`answerBubbleEl.isConnected`). -/
inductive ChatOutcome where
  | success (answer : String) (connected : Bool)
  | blocked (connected : Bool)
  | failure
deriving Repr, DecidableEq

/-- Model of the send-button click handler (unnamed chat-view revision,
lines 51–115): guard, optimistic push of the user turn, then — depending
on the response — append a model turn (success, bubble connected), pop
the user turn (zero candidates, bubble connected), do nothing further
(bubble disconnected), or pop the user turn (thrown failure, which pops
unconditionally in the catch block).  Returns the final
`conversationHistory`. -/
def sendTurn (history : List GeminiContent) (userInput : String)
    (messagesConnected inputDisabled : Bool) (outcome : ChatOutcome) :
    List GeminiContent :=
  if userInput = "" ∨ messagesConnected = false ∨ inputDisabled = true then history
  else
    let h₁ := history ++ [mkUserTurn userInput]
    match outcome with
    | .success ans conn => if conn then h₁ ++ [mkModelTurn ans] else h₁
    | .blocked conn => if conn then h₁.dropLast else h₁
    | .failure => h₁.dropLast

/-- Claim C5 as stated is false: when the response has zero candidates
but the answer bubble is no longer connected, the optimistic user turn is
not popped — the history ends one turn longer than before the send. -/
theorem chat_rollback_counterexample :
    sendTurn [] "hi" true false (.blocked false) = [mkUserTurn "hi"] ∧
    ¬ sendTurn [] "hi" true false (.blocked false) = [] := by
  refine ⟨by decide, by decide⟩

/-- Claim C5 amended: for every sent turn, a zero-candidate response
rolls back the just-appended user turn provided the answer bubble is
still connected; a thrown request rolls it back unconditionally; and
history grows by the user turn plus a model turn exactly on success with
at least one candidate and a connected bubble (on success with a
disconnected bubble only the user turn remains). -/
theorem chat_rollback (h : List GeminiContent) (u ans : String) (hu : u ≠ "") :
    sendTurn h u true false (.blocked true) = h ∧
    sendTurn h u true false .failure = h ∧
    sendTurn h u true false (.success ans true) =
      h ++ [mkUserTurn u] ++ [mkModelTurn ans] ∧
    sendTurn h u true false (.success ans false) = h ++ [mkUserTurn u] := by
  unfold sendTurn
  simp [hu, List.dropLast_concat]

/-- A closed instance of the amended C5 at a concrete history and turn. -/
theorem chat_rollback_witness :
    sendTurn [mkModelTurn "m"] "hi" true false (.blocked true) = [mkModelTurn "m"] ∧
    sendTurn [mkModelTurn "m"] "hi" true false .failure = [mkModelTurn "m"] ∧
    sendTurn [mkModelTurn "m"] "hi" true false (.success "ok" true) =
      [mkModelTurn "m"] ++ [mkUserTurn "hi"] ++ [mkModelTurn "ok"] ∧
    sendTurn [mkModelTurn "m"] "hi" true false (.success "ok" false) =
      [mkModelTurn "m"] ++ [mkUserTurn "hi"] := by
  exact chat_rollback [mkModelTurn "m"] "hi" "ok" (by decide)

/-- The fixed text of the system preamble before the PDF text. -/
def sysPromptPre : String :=
  "あなたは、以下のPDF全文を読んだ上で、ユーザーの質問に答えるアシスタントです。会話の文脈も考慮して、自然な対話を行ってください。\n\n--- PDF CONTENT ---\n"

/-- The fixed text of the system preamble after the PDF text. -/
def sysPromptPost : String :=
  "\n--- END PDF CONTENT ---\n\n以上の内容を踏まえて、次のユーザーの質問に答えてください。回答は必ずMarkdown形式で、見出しやリスト、太字などを使って分かりやすく整形してください。"

/-- Model of the `systemPrompt` template literal: the preamble with the
full extracted PDF text spliced in. -/
def systemPrompt (pdfText : String) : String :=
  sysPromptPre ++ pdfText ++ sysPromptPost

/-- Model of the request body's `contents` array: all history except the
just-appended turn (`this.conversationHistory.slice(0, -1)`), plus one
synthetic user turn whose parts are the system prompt followed by the
user input. -/
def requestContents (history : List GeminiContent) (pdfText userInput : String) :
    List GeminiContent :=
  history.dropLast ++ [⟨.user, [systemPrompt pdfText, userInput]⟩]

/-- Claim C6 (chat request construction): when the handler builds the
request after pushing the user turn, the `contents` array equals the
pre-push history followed by one synthetic user turn whose parts are the
system preamble (which contains the full PDF text) followed by the
actual user parts; the just-pushed plain user turn itself never appears
in the request. -/
theorem chat_request_construction (h₀ : List GeminiContent) (pdfText u : String) :
    requestContents (h₀ ++ [mkUserTurn u]) pdfText u =
      h₀ ++ [⟨.user, systemPrompt pdfText :: (mkUserTurn u).parts⟩] ∧
    (∃ a b, systemPrompt pdfText = a ++ pdfText ++ b) ∧
    (mkUserTurn u ∉ h₀ →
      mkUserTurn u ∉ requestContents (h₀ ++ [mkUserTurn u]) pdfText u) := by
  refine ⟨?_, ⟨sysPromptPre, sysPromptPost, rfl⟩, ?_⟩
  · unfold requestContents
    rw [List.dropLast_concat]
    rfl
  · intro hnot hmem
    unfold requestContents at hmem
    rw [List.dropLast_concat] at hmem
    rcases List.mem_append.mp hmem with hin | hin
    · exact hnot hin
    · have : mkUserTurn u = ⟨.user, [systemPrompt pdfText, u]⟩ := by
        simpa using hin
      have hparts := congrArg (fun c => c.parts.length) this
      simp [mkUserTurn] at hparts

/-- A closed instance of C6 at a concrete history, PDF text and input. -/
theorem chat_request_construction_witness :
    requestContents ([mkModelTurn "m"] ++ [mkUserTurn "hi"]) "PDF" "hi" =
      [mkModelTurn "m"] ++ [⟨.user, systemPrompt "PDF" :: (mkUserTurn "hi").parts⟩] ∧
    mkUserTurn "hi" ∉ requestContents ([mkModelTurn "m"] ++ [mkUserTurn "hi"]) "PDF" "hi" := by
  have h := chat_request_construction [mkModelTurn "m"] "PDF" "hi"
  exact ⟨h.1, h.2.2 (by decide)⟩

/- ===================== Similarity engine ===================== -/

/-- Model of the dot product
`vecA.reduce((sum, a, i) => sum + a * (vecB[i] || 0), 0)`:
iterate over the first vector's positions, treating a missing entry of
the second vector as 0.  JS numbers are modelled as exact reals. -/
noncomputable def dotProd : List ℝ → List ℝ → ℝ
  | [], _ => 0
  | a :: as, [] => a * 0 + dotProd as []
  | a :: as, b :: bs => a * b + dotProd as bs

/-- Model of `vec.reduce((sum, a) => sum + a * a, 0)`. -/
noncomputable def sumSq : List ℝ → ℝ
  | [] => 0
  | a :: as => a * a + sumSq as

/-- Model of `Math.sqrt(vec.reduce((sum, a) => sum + a * a, 0))`. -/
noncomputable def magnitudeR (l : List ℝ) : ℝ :=
  Real.sqrt (sumSq l)

open Classical in
/-- Model of `cosineSimilarity`: 0 on length mismatch, 0 when either
magnitude is zero, otherwise the dot product over the product of the
magnitudes.  (The `!vecA || !vecB` null check cannot fire in this model,
where both arguments are lists.) -/
noncomputable def cosineSimilarity (a b : List ℝ) : ℝ :=
  if a.length ≠ b.length then 0
  else if magnitudeR a = 0 ∨ magnitudeR b = 0 then 0
  else dotProd a b / (magnitudeR a * magnitudeR b)

/-- A `PdfChunk` as consumed by the similarity engine (embedding
components as reals, matching the real-valued model of `Math.sqrt`). -/
structure PdfChunkR where
  text : String
  page : Nat
  embedding : List ℝ

open Classical in
/-- Model of `findMaxSimilarity`: 0 when the query vector is absent
(`null`) or the chunk corpus is empty, otherwise the running maximum of
the pairwise cosine similarities, starting from 0. -/
noncomputable def findMaxSimilarity (q : Option (List ℝ)) (chunks : List PdfChunkR) : ℝ :=
  match q with
  | none => 0
  | some v =>
    if chunks.length = 0 then 0
    else chunks.foldl
      (fun m c => if cosineSimilarity v c.embedding > m then cosineSimilarity v c.embedding else m) 0

lemma sumSq_nonneg (l : List ℝ) : 0 ≤ sumSq l := by
  induction l with
  | nil => simp [sumSq]
  | cons a as ih =>
    have := mul_self_nonneg a
    simp only [sumSq]
    linarith

lemma dotProd_nil_right (a : List ℝ) : dotProd a [] = 0 := by
  induction a with
  | nil => simp [dotProd]
  | cons x xs ih => simp [dotProd, ih]

lemma dotProd_getD (a : List ℝ) : ∀ b : List ℝ,
    dotProd a b = ∑ i ∈ Finset.range a.length, a.getD i 0 * b.getD i 0 := by
  induction a with
  | nil => intro b; simp [dotProd]
  | cons x xs ih =>
    intro b
    cases b with
    | nil =>
      rw [dotProd, dotProd_nil_right]
      simp
    | cons y ys =>
      rw [dotProd, ih ys]
      rw [List.length_cons, Finset.sum_range_succ']
      simp [add_comm]

lemma sumSq_getD (a : List ℝ) :
    sumSq a = ∑ i ∈ Finset.range a.length, a.getD i 0 ^ 2 := by
  induction a with
  | nil => simp [sumSq]
  | cons x xs ih =>
    rw [sumSq, ih, List.length_cons, Finset.sum_range_succ']
    simp [add_comm, sq]

lemma dotProd_sq_le (a b : List ℝ) (h : a.length = b.length) :
    dotProd a b ^ 2 ≤ sumSq a * sumSq b := by
  rw [dotProd_getD, sumSq_getD, sumSq_getD, ← h]
  exact Finset.sum_mul_sq_le_sq_mul_sq (Finset.range a.length) _ _

lemma dotProd_le_mag_mul (a b : List ℝ) (h : a.length = b.length) :
    dotProd a b ≤ magnitudeR a * magnitudeR b := by
  have h₁ : dotProd a b ≤ |dotProd a b| := le_abs_self _
  have h₂ : |dotProd a b| = Real.sqrt (dotProd a b ^ 2) :=
    (Real.sqrt_sq_eq_abs _).symm
  have h₃ : Real.sqrt (dotProd a b ^ 2) ≤ Real.sqrt (sumSq a * sumSq b) :=
    Real.sqrt_le_sqrt (dotProd_sq_le a b h)
  have h₄ : Real.sqrt (sumSq a * sumSq b) = magnitudeR a * magnitudeR b :=
    Real.sqrt_mul (sumSq_nonneg a) _
  linarith

lemma cosine_le_one (a b : List ℝ) : cosineSimilarity a b ≤ 1 := by
  unfold cosineSimilarity
  split_ifs with h₁ h₂
  · norm_num
  · norm_num
  · push_neg at h₁ h₂
    obtain ⟨hma, hmb⟩ := h₂
    have hA : 0 < magnitudeR a :=
      lt_of_le_of_ne (Real.sqrt_nonneg _) (Ne.symm hma)
    have hB : 0 < magnitudeR b :=
      lt_of_le_of_ne (Real.sqrt_nonneg _) (Ne.symm hmb)
    rw [div_le_one (mul_pos hA hB)]
    exact dotProd_le_mag_mul a b h₁

lemma foldl_sim_bounds (v : List ℝ) (chunks : List PdfChunkR) : ∀ m : ℝ,
    0 ≤ m → m ≤ 1 →
    0 ≤ chunks.foldl
      (fun m c => if cosineSimilarity v c.embedding > m then cosineSimilarity v c.embedding else m) m ∧
    chunks.foldl
      (fun m c => if cosineSimilarity v c.embedding > m then cosineSimilarity v c.embedding else m) m ≤ 1 := by
  induction chunks with
  | nil => intro m h0 h1; exact ⟨h0, h1⟩
  | cons c cs ih =>
    intro m h0 h1
    rw [List.foldl_cons]
    by_cases hgt : cosineSimilarity v c.embedding > m
    · rw [if_pos hgt]
      exact ih _ (le_of_lt (lt_of_le_of_lt h0 hgt)) (cosine_le_one v c.embedding)
    · rw [if_neg hgt]
      exact ih m h0 h1

/-- Claim C4 (similarity-engine contract): `findMaxSimilarity` always
returns a value in `[0, 1]`; it returns exactly 0 when the query vector
is absent or when the chunk corpus is empty; `cosineSimilarity` returns
exactly 0 when the vectors differ in length or when either magnitude is
zero, and otherwise equals the dot product divided by the product of the
magnitudes. -/
theorem similarity_engine_contract :
    (∀ q chunks, 0 ≤ findMaxSimilarity q chunks ∧ findMaxSimilarity q chunks ≤ 1) ∧
    (∀ chunks, findMaxSimilarity none chunks = 0) ∧
    (∀ q, findMaxSimilarity q [] = 0) ∧
    (∀ a b : List ℝ, a.length ≠ b.length → cosineSimilarity a b = 0) ∧
    (∀ a b : List ℝ, magnitudeR a = 0 ∨ magnitudeR b = 0 → cosineSimilarity a b = 0) ∧
    (∀ a b : List ℝ, a.length = b.length → magnitudeR a ≠ 0 → magnitudeR b ≠ 0 →
      cosineSimilarity a b = dotProd a b / (magnitudeR a * magnitudeR b)) := by
  refine ⟨?_, ?_, ?_, ?_, ?_, ?_⟩
  · intro q chunks
    unfold findMaxSimilarity
    cases q with
    | none => norm_num
    | some v =>
      by_cases hch : chunks.length = 0
      · simp only [hch]
        norm_num
      · simp only [hch, if_false]
        exact foldl_sim_bounds v chunks 0 le_rfl zero_le_one
  · intro chunks; rfl
  · intro q
    cases q with
    | none => rfl
    | some v => simp [findMaxSimilarity]
  · intro a b h
    unfold cosineSimilarity
    rw [if_pos h]
  · intro a b h
    unfold cosineSimilarity
    by_cases hlen : a.length ≠ b.length
    · rw [if_pos hlen]
    · rw [if_neg hlen, if_pos h]
  · intro a b hlen hma hmb
    unfold cosineSimilarity
    rw [if_neg (by simpa using hlen), if_neg (by tauto)]

/-- Closed instances of C4's conditional clauses at concrete vectors. -/
theorem similarity_engine_contract_witness :
    (0 ≤ findMaxSimilarity (some [1]) [⟨"t", 1, [1]⟩] ∧
      findMaxSimilarity (some [1]) [⟨"t", 1, [1]⟩] ≤ 1) ∧
    findMaxSimilarity none [⟨"t", 1, [1]⟩] = 0 ∧
    findMaxSimilarity (some [1]) [] = 0 ∧
    cosineSimilarity [1] [1, 2] = 0 ∧
    cosineSimilarity [0] [0] = 0 ∧
    cosineSimilarity [1] [1] = dotProd [1] [1] / (magnitudeR [1] * magnitudeR [1]) := by
  obtain ⟨hb, hnone, hempty, hmis, hzero, hratio⟩ := similarity_engine_contract
  have hmag0 : magnitudeR [0] = 0 := by
    simp [magnitudeR, sumSq]
  have hmag1 : magnitudeR [1] ≠ 0 := by
    have : sumSq [1] = 1 := by norm_num [sumSq]
    simp [magnitudeR, this]
  exact ⟨hb (some [1]) [⟨"t", 1, [1]⟩], hnone _, hempty _,
    hmis [1] [1, 2] (by norm_num),
    hzero [0] [0] (Or.inl hmag0),
    hratio [1] [1] rfl hmag1 hmag1⟩

/- ===================== Cache record JSON (definitions) ===================== -/

/-- A `PdfChunk` of the ingestion pipeline: embedding components as exact
rationals (the pipeline performs no irrational arithmetic on them). -/
structure PdfChunk where
  text : String
  page : Nat
  embedding : List ℚ
deriving Repr, DecidableEq

/-- The numerator of a rational scaled by `10^4` and rounded to the
nearest integer, ties toward plus infinity (the larger candidate, as the
ECMAScript `toFixed` rule picks): `⌊q·10⁴ + 1/2⌋`, written with integer
arithmetic (`/` on `ℤ` is Euclidean division, which is floor division
for the positive divisor used here). -/
def jsRound4 (q : ℚ) : ℤ :=
  (2 * q.num * 10000 + q.den) / (2 * q.den)

/-- Model of `parseFloat(value.toFixed(4))`: round to 4 decimal places,
ties toward the larger candidate (the ECMAScript `toFixed` rule), which
is `round` (half toward plus infinity) — see `jsRound4_eq_round`. -/
def round4 (q : ℚ) : ℚ :=
  Rat.divInt (jsRound4 q) 10000

/-- Model of
`chunksToCache = currentPdfChunks.map(chunk => ({...chunk, embedding: chunk.embedding.map(value => parseFloat(value.toFixed(4)))}))`. -/
def roundChunks (l : List PdfChunk) : List PdfChunk :=
  l.map (fun c => ⟨c.text, c.page, c.embedding.map round4⟩)

/-- Decimal digit character. -/
def digitCh (n : Nat) : Char :=
  Char.ofNat (48 + n)

/-- Decimal digits of a natural number, most significant first;
`fuel` bounds the digit count, the wrapper passes `n + 1`. -/
def toDecGo : Nat → Nat → List Char
  | 0, _ => []
  | fuel + 1, n => if n < 10 then [digitCh n] else toDecGo fuel (n / 10) ++ [digitCh (n % 10)]

/-- Decimal notation of a natural number, as printed for JSON. -/
def toDec (n : Nat) : List Char :=
  toDecGo (n + 1) n

/-- The four decimal digits of a fraction numerator `fp < 10000`,
zero-padded on the left. -/
def pad4 (fp : Nat) : List Char :=
  List.replicate (4 - (toDec fp).length) '0' ++ toDec fp

/-- Drop trailing zero digits (shortest representation of the fraction
part, as JS number-to-string printing produces). -/
def dropZeros (l : List Char) : List Char :=
  (l.reverse.dropWhile (fun c => c == '0')).reverse

/-- Print the JS number `m / 10000` the way `JSON.stringify` prints it:
`"0"` for zero, otherwise sign, integer part, and — when the fraction
part is non-zero — a dot followed by the fraction digits with trailing
zeros trimmed. -/
def printScaled (m : ℤ) : List Char :=
  if m = 0 then ['0']
  else
    let a := m.natAbs
    let ip := a / 10000
    let fp := a % 10000
    let sign : List Char := if m < 0 then ['-'] else []
    if fp = 0 then sign ++ toDec ip
    else sign ++ toDec ip ++ '.' :: dropZeros (pad4 fp)

/-- Print an embedding component as `JSON.stringify` prints the number
`parseFloat(value.toFixed(4))`.  On values that already carry at most 4
decimals (the only values the plugin serializes) the scaling below is
exact. -/
def printNum (q : ℚ) : List Char :=
  printScaled (jsRound4 q)

/-- Lowercase hexadecimal digit (as emitted by `JSON.stringify` in
`\u00XX` escapes). -/
def hexDigit (n : Nat) : Char :=
  if n < 10 then Char.ofNat (48 + n) else Char.ofNat (87 + n)

/-- How `JSON.stringify` quotes one character of a string: two-character
escapes for quote, backslash, backspace, form feed, newline, carriage
return and tab; `\u00XX` for other control characters; the character
itself otherwise. -/
def encodeChar (c : Char) : List Char :=
  if c = '"' then ['\\', '"']
  else if c = '\\' then ['\\', '\\']
  else if c = '\x08' then ['\\', 'b']
  else if c = '\x0c' then ['\\', 'f']
  else if c = '\n' then ['\\', 'n']
  else if c = '\r' then ['\\', 'r']
  else if c = '\t' then ['\\', 't']
  else if c.toNat < 0x20 then
    ['\\', 'u', '0', '0', hexDigit (c.toNat / 16), hexDigit (c.toNat % 16)]
  else [c]

/-- A JSON string literal for `s`, quotes included. -/
def encodeStr (s : String) : List Char :=
  '"' :: (s.data.flatMap encodeChar ++ ['"'])

/-- A newline followed by `n` spaces (the indentation `JSON.stringify`
produces for indent width 2). -/
def nlIndent (n : Nat) : List Char :=
  '\n' :: List.replicate n ' '

/-- Join rendered pieces with a separator (the JSON serializer's comma
placement between array elements). -/
def joinSep (sep : List Char) : List (List Char) → List Char
  | [] => []
  | [x] => x
  | x :: y :: t => x ++ sep ++ joinSep sep (y :: t)

/-- The `embedding` array as `JSON.stringify({...}, null, 2)` renders it
at depth 3: `[]` when empty, otherwise one component per line at indent
8 with the closing bracket at indent 6. -/
def serializeEmbedding (es : List ℚ) : List Char :=
  match es with
  | [] => ['[', ']']
  | _ =>
    '[' :: (joinSep [','] (es.map (fun q => nlIndent 8 ++ printNum q)) ++
      (nlIndent 6 ++ [']']))

/-- One chunk object as rendered at depth 2 (fields in the fixed order
the plugin writes them: `text`, `page`, `embedding`). -/
def serializeChunk (c : PdfChunk) : List Char :=
  '\x7b' :: (nlIndent 6 ++ encodeStr "text" ++ [':', ' '] ++
    encodeStr c.text ++ [','] ++
    nlIndent 6 ++ encodeStr "page" ++ [':', ' '] ++
    toDec c.page ++ [','] ++
    nlIndent 6 ++ encodeStr "embedding" ++
    [':', ' '] ++ serializeEmbedding c.embedding ++
    nlIndent 4 ++ ['\x7d'])

/-- Model of `JSON.stringify({ chunks: ... }, null, 2)` on the cache
record: the exact text the plugin writes to the cache file. -/
def serializeCache (chunks : List PdfChunk) : String :=
  ⟨'\x7b' :: (nlIndent 2 ++ encodeStr "chunks" ++
    [':', ' '] ++
    (match chunks with
     | [] => ['[', ']']
     | _ =>
       '[' :: (joinSep [','] (chunks.map (fun c => nlIndent 4 ++ serializeChunk c)) ++
         (nlIndent 2 ++ [']'])))
    ++ ['\n', '\x7d'])⟩

/-- JSON insignificant whitespace (space, tab, line feed, carriage
return, by code point). -/
def isJsonWs (c : Char) : Bool :=
  c.toNat == 32 || c.toNat == 9 || c.toNat == 10 || c.toNat == 13

/-- Skip insignificant whitespace. -/
def skipWs (l : List Char) : List Char :=
  l.dropWhile isJsonWs

/-- Expect one punctuation character, after whitespace. -/
def expectCh (c : Char) (l : List Char) : Option (List Char) :=
  match skipWs l with
  | x :: r => if x = c then some r else none
  | [] => none

/-- Hexadecimal digit value accepted in a `\uXXXX` escape. -/
def hexVal (c : Char) : Option Nat :=
  if 48 ≤ c.toNat ∧ c.toNat ≤ 57 then some (c.toNat - 48)
  else if 97 ≤ c.toNat ∧ c.toNat ≤ 102 then some (c.toNat - 87)
  else if 65 ≤ c.toNat ∧ c.toNat ≤ 70 then some (c.toNat - 55)
  else none

/-- Decoding of a two-character JSON string escape. -/
def escDecode (e : Char) : Option Char :=
  if e = '"' then some '"'
  else if e = '\\' then some '\\'
  else if e = '/' then some '/'
  else if e = 'b' then some '\x08'
  else if e = 'f' then some '\x0c'
  else if e = 'n' then some '\n'
  else if e = 'r' then some '\r'
  else if e = 't' then some '\t'
  else none

/-- Body of a JSON string literal, after the opening quote: the decoded
characters and the rest of the input after the closing quote.  Raw
control characters are rejected as `JSON.parse` rejects them; a `\uXXXX`
escape denoting a lone surrogate is not representable as a Lean `Char`
and is rejected by this model (the plugin never writes one). -/
def decodeStrBody : List Char → Option (List Char × List Char)
  | [] => none
  | c :: rest =>
    if c = '"' then some ([], rest)
    else if c = '\\' then
      match rest with
      | [] => none
      | e :: rest₂ =>
        if e = 'u' then
          match rest₂ with
          | h1 :: h2 :: h3 :: h4 :: rest₃ =>
            match hexVal h1, hexVal h2, hexVal h3, hexVal h4 with
            | some a, some b, some cc, some d =>
              let n := ((a * 16 + b) * 16 + cc) * 16 + d
              if n < 0xd800 ∨ (0xdfff < n ∧ n < 0x110000) then
                (decodeStrBody rest₃).map (fun pr => (Char.ofNat n :: pr.1, pr.2))
              else none
            | _, _, _, _ => none
          | _ => none
        else
          match escDecode e with
          | some d => (decodeStrBody rest₂).map (fun pr => (d :: pr.1, pr.2))
          | none => none
    else if c.toNat < 0x20 then none
    else (decodeStrBody rest).map (fun pr => (c :: pr.1, pr.2))

/-- A JSON string token (after whitespace), decoded. -/
def parseStrTok (l : List Char) : Option (String × List Char) :=
  match skipWs l with
  | '"' :: r => (decodeStrBody r).map (fun pr => (⟨pr.1⟩, pr.2))
  | _ => none

/-- A non-empty digit run and the rest. -/
def parseDigits (l : List Char) : Option (List Char × List Char) :=
  let ds := l.takeWhile isDigitCh
  if ds.isEmpty then none else some (ds, l.dropWhile isDigitCh)

/-- Powers of ten (structural, so that concrete parses reduce). -/
def pow10 : Nat → Nat
  | 0 => 1
  | n + 1 => 10 * pow10 n

/-- Unsigned JSON number: digits with an optional fraction part, of
value `ds + fs / 10^|fs|`, written over a common denominator.  (The
plugin's serializer never emits exponents, which this model of the
relevant number grammar therefore omits.) -/
def parseNumCore (l : List Char) : Option (ℚ × List Char) :=
  match parseDigits l with
  | none => none
  | some (ds, r₁) =>
    match r₁ with
    | '.' :: r₂ =>
      match parseDigits r₂ with
      | none => none
      | some (fs, r₃) =>
        some (Rat.divInt
          ((digitsToNat ds * pow10 fs.length + digitsToNat fs : Nat) : ℤ)
          ((pow10 fs.length : Nat) : ℤ), r₃)
    | _ => some (((digitsToNat ds : ℤ) : ℚ), r₁)

/-- A JSON number token (after whitespace), with optional minus sign. -/
def parseNumTok (l : List Char) : Option (ℚ × List Char) :=
  match skipWs l with
  | '-' :: r => (parseNumCore r).map (fun pr => (-pr.1, pr.2))
  | r => parseNumCore r

/-- The elements of a JSON number array, called just after the opening
bracket; `fuel` bounds the element count. -/
def parseNums : Nat → List Char → Option (List ℚ × List Char)
  | 0, _ => none
  | fuel + 1, l =>
    match expectCh ']' l with
    | some r => some ([], r)
    | none =>
      match parseNumTok l with
      | none => none
      | some (q, r₁) =>
        match skipWs r₁ with
        | ',' :: r₂ => (parseNums fuel r₂).map (fun pr => (q :: pr.1, pr.2))
        | ']' :: r₂ => some ([q], r₂)
        | _ => none

/-- One chunk object of the cache record: fields `text`, `page`,
`embedding` in the order the plugin writes them; the page must denote a
natural number to inhabit `PdfChunk`. -/
def parseChunkObj (fuel : Nat) (l : List Char) : Option (PdfChunk × List Char) := do
  let r0 ← expectCh '\x7b' l
  let (k1, r1) ← parseStrTok r0
  if k1 = "text" then
    let r2 ← expectCh ':' r1
    let (txt, r3) ← parseStrTok r2
    let r4 ← expectCh ',' r3
    let (k2, r5) ← parseStrTok r4
    if k2 = "page" then
      let r6 ← expectCh ':' r5
      let (pq, r7) ← parseNumTok r6
      if pq.den = 1 ∧ 0 ≤ pq then
        let r8 ← expectCh ',' r7
        let (k3, r9) ← parseStrTok r8
        if k3 = "embedding" then
          let r10 ← expectCh ':' r9
          let r11 ← expectCh '[' r10
          let (es, r12) ← parseNums fuel r11
          let r13 ← expectCh '\x7d' r12
          some (⟨txt, pq.num.toNat, es⟩, r13)
        else none
      else none
    else none
  else none

/-- The elements of the `chunks` array, called just after its opening
bracket; `fuel` bounds the element count and `numFuel` is handed
unchanged to each chunk object for its embedding array. -/
def parseChunks (numFuel : Nat) : Nat → List Char → Option (List PdfChunk × List Char)
  | 0, _ => none
  | fuel + 1, l =>
    match expectCh ']' l with
    | some r => some ([], r)
    | none => do
      let (c, r₁) ← parseChunkObj numFuel l
      match skipWs r₁ with
      | ',' :: r₂ => (parseChunks numFuel fuel r₂).map (fun pr => (c :: pr.1, pr.2))
      | ']' :: r₂ => some ([c], r₂)
      | _ => none

/-- Model of `JSON.parse(cacheData)` followed by reading `cache.chunks`,
specialized to the record shape the plugin reads and writes
(`{ chunks: [{ text, page, embedding }, ...] }`); any malformed input
yields `none`, which the plugin treats as a corrupted cache. -/
def parseCache (s : String) : Option (List PdfChunk) := do
  let l := s.data
  let r0 ← expectCh '\x7b' l
  let (k, r1) ← parseStrTok r0
  if k = "chunks" then
    let r2 ← expectCh ':' r1
    let r3 ← expectCh '[' r2
    let (cs, r4) ← parseChunks (l.length + 1) (l.length + 1) r3
    let r5 ← expectCh '\x7d' r4
    if (skipWs r5).isEmpty then some cs else none
  else none

example :
    parseCache (serializeCache [⟨"a b", 3, [mkRat 1 2, mkRat (-3) 40000]⟩]) =
      some [⟨"a b", 3, [mkRat 1 2, mkRat (-1) 10000]⟩] := by
  decide

lemma jsRound4_eq_round (q : ℚ) : jsRound4 q = round (q * 10000) := by
  rw [round_eq]
  have hden : (q.den : ℚ) ≠ 0 := by
    exact_mod_cast q.den_nz
  have hq : (q.num : ℚ) / (q.den : ℚ) = q := Rat.num_div_den q
  have hne2 : ((2 * q.den : ℕ) : ℚ) ≠ 0 := by
    have hdz : q.den ≠ 0 := q.den_nz
    exact Nat.cast_ne_zero.mpr (by omega)
  have hmul : q * (q.den : ℚ) = (q.num : ℚ) := by
    nth_rewrite 1 [← hq]
    rw [div_mul_cancel₀ _ hden]
  have heq : q * 10000 + 1 / 2 =
      ((2 * q.num * 10000 + (q.den : ℤ) : ℤ) : ℚ) / ((2 * q.den : ℕ) : ℚ) := by
    rw [eq_div_iff hne2]
    push_cast
    linear_combination (20000 : ℚ) * hmul
  rw [heq, Rat.floor_intCast_div_natCast]
  unfold jsRound4
  push_cast
  rfl

/- ===================== Ingestion pipeline (definitions) ===================== -/

/-- The `ProcessingState` status values broadcast by the pipeline
(the `embedding` status carries its `progress` and `total` fields). -/
inductive ProcState where
  | idle
  | searching_cache
  | loading_cache
  | reading
  | chunking
  | embedding (progress total : Nat)
  | complete
  | error
deriving Repr, DecidableEq

/-- The plugin settings fields the pipeline reads. -/
structure PluginSettings where
  apiKey : String
  selectedModel : String
  selectedEmbeddingModel : String
  lastProcessedFile : Option String
  concurrency : Nat
deriving Repr, DecidableEq

/-- The mutable plugin fields the pipeline touches, plus the contents of
the cache directory (a map from cache file name to file text). -/
structure PluginState where
  settings : PluginSettings
  currentPdfText : String
  currentPdfChunks : List PdfChunk
  isProcessing : Bool
  cache : String → Option String

/-- The environment of one ingestion run: the text the PDF parser
produces for the document, the embedding endpoint's per-text result
(`none` models the `null` returned when the request fails), and
injected rejections of the binary read and the cache write. -/
structure PdfEnv where
  pdfText : String
  embed : String → Option (List ℚ)
  readFails : Bool
  writeFails : Bool

/-- Model of one `getEmbedding` call followed by
`if (embedding) { currentPdfChunks.push({...chunk, embedding}) }`:
the enriched chunk, or `none` when the call failed. -/
def embedChunk (embed : String → Option (List ℚ)) (c : RawChunk) : Option PdfChunk :=
  match embed c.text with
  | some e => some ⟨c.text, c.page, e⟩
  | none => none

/-- The batch loop of `preparePdf`: before each batch of size `b`, emit
`(processedCount, total)`; collect the batch's successful embeddings in
order; advance `processedCount` by the batch length.  Returns the
collected chunks and the emitted `(progress, total)` pairs.  `fuel`
bounds the batch count; the wrapper passes `l.length + 1`. -/
def batchLoopGo (embed : String → Option (List ℚ)) (b total : Nat) :
    Nat → List RawChunk → Nat → List PdfChunk × List (Nat × Nat)
  | 0, _, _ => ([], [])
  | _ + 1, [], _ => ([], [])
  | fuel + 1, c :: cs, processed =>
    let batch := (c :: cs).take b
    let rest := (c :: cs).drop b
    let results := batch.filterMap (embedChunk embed)
    let next := batchLoopGo embed b total fuel rest (processed + batch.length)
    (results ++ next.1, (processed, total) :: next.2)

/-- The whole embedding stage: run the batch loop, then emit the final
`(total, total)` update (`onStateChange({status:'embedding', progress:
chunksToEmbed.length, total: chunksToEmbed.length})`). -/
def embedBatches (embed : String → Option (List ℚ)) (b : Nat) (l : List RawChunk) :
    List PdfChunk × List (Nat × Nat) :=
  let r := batchLoopGo embed b l.length (l.length + 1) l 0
  (r.1, r.2 ++ [(l.length, l.length)])

/-- The batches `l.slice(0, b), l.slice(b, 2b), …` as a list of lists
(`fuel` as in `batchLoopGo`). -/
def toBatches (b : Nat) : Nat → List RawChunk → List (List RawChunk)
  | 0, _ => []
  | _ + 1, [] => []
  | fuel + 1, c :: cs => (c :: cs).take b :: toBatches b fuel ((c :: cs).drop b)

/-- The batches of `l` under batch size `b`. -/
def batchesOf (b : Nat) (l : List RawChunk) : List (List RawChunk) :=
  toBatches b (l.length + 1) l

/-- Model of
`currentPdfText = currentPdfChunks.map(chunk => `[Page ${chunk.page}]\n${chunk.text}`).join('\n\n')`
on a cache hit. -/
def joinCachedText (chunks : List PdfChunk) : String :=
  String.intercalate "\n\n"
    (chunks.map (fun c => "[Page " ++ (⟨toDec c.page⟩ : String) ++ "]\n" ++ c.text))

/-- Point update of the cache directory contents. -/
def cacheUpdate (cache : String → Option String) (k v : String) : String → Option String :=
  fun x => if x = k then some v else cache x

/-- The `try` block of `preparePdf` (everything from the binary read to
the cache write).  Returns the state, the emissions of the block (the
`reading` emission itself happens just before the block and is added by
the caller), and whether the block threw: the binary read rejecting, the
first `getEmbedding` call throwing because no embedding model is
selected, or the cache write rejecting. -/
def preparePdfTry (env : PdfEnv) (key : String) (s : PluginState) :
    PluginState × List ProcState × Bool :=
  if env.readFails then (s, [], true)
  else
    let s₁ : PluginState := { s with currentPdfText := env.pdfText, currentPdfChunks := [] }
    let chunksToEmbed := splitIntoChunks env.pdfText
    if chunksToEmbed.isEmpty then
      ({ s₁ with isProcessing := false }, [.chunking, .complete], false)
    else if s₁.settings.selectedEmbeddingModel = "" then
      (s₁, [.chunking, .embedding 0 chunksToEmbed.length], true)
    else
      let r := embedBatches env.embed s₁.settings.concurrency chunksToEmbed
      let s₂ : PluginState := { s₁ with currentPdfChunks := r.1 }
      let emits := ProcState.chunking :: r.2.map (fun pr => ProcState.embedding pr.1 pr.2)
      if s₂.currentPdfChunks.isEmpty then (s₂, emits, false)
      else if env.writeFails then (s₂, emits, true)
      else
        ({ s₂ with
            cache := cacheUpdate s₂.cache key
              (serializeCache (roundChunks s₂.currentPdfChunks)) },
         emits, false)

/-- The `reading` emission, the `try` block, the `catch` handler (emit
`error`) and the `finally` handler (emit `complete`, clear the
in-progress flag).  `emitted` holds the emissions that already happened
before the `reading` one. -/
def preparePdfBody (env : PdfEnv) (key : String) (s : PluginState)
    (emitted : List ProcState) : PluginState × List ProcState :=
  let r := preparePdfTry env key s
  if r.2.2 then
    ({ r.1 with isProcessing := false },
     emitted ++ ProcState.reading :: r.2.1 ++ [.error, .complete])
  else
    ({ r.1 with isProcessing := false },
     emitted ++ ProcState.reading :: r.2.1 ++ [.complete])

/-- Model of `preparePdf` (the unnamed main-file revision with the
re-entrancy guard, lines 132–218): the re-entrancy guard, the API-key
guard, persisting `lastProcessedFile`, the `searching_cache` emission
(the deliberate 1-second delay has no observable effect here), the cache
lookup keyed by the sanitized path, the cache-hit path (parse; on
success publish the cached chunks and the re-joined text, emit
`complete` and stop; on corrupt JSON fall through), and otherwise the
read/chunk/embed/write body with its `catch`/`finally`. -/
def preparePdf (env : PdfEnv) (filePath : String) (s : PluginState) :
    PluginState × List ProcState :=
  if s.isProcessing then (s, [])
  else
    let s₁ : PluginState := { s with isProcessing := true }
    if s₁.settings.apiKey = "" then ({ s₁ with isProcessing := false }, [])
    else
      let s₂ : PluginState :=
        { s₁ with settings := { s₁.settings with lastProcessedFile := some filePath } }
      let key := cacheFileName filePath
      match s₂.cache key with
      | some content =>
        match parseCache content with
        | some chunks =>
          ({ s₂ with
              currentPdfChunks := chunks,
              currentPdfText := joinCachedText chunks,
              isProcessing := false },
           [.searching_cache, .loading_cache, .complete])
        | none => preparePdfBody env key s₂ [.searching_cache, .loading_cache]
      | none => preparePdfBody env key s₂ [.searching_cache]

/- ===================== Pipeline theorems: C1, C2 ===================== -/

/-- Claim C1 (re-entrancy guard): a `preparePdf` call made while
`isProcessing` is true returns immediately with no state change and no
emission — in particular `currentPdfChunks`, `currentPdfText`,
`lastProcessedFile` and the cache are untouched — for every requested
document path (same or different). -/
theorem reentrancy_guard (env : PdfEnv) (filePath : String) (s : PluginState)
    (h : s.isProcessing = true) :
    preparePdf env filePath s = (s, []) ∧
    (preparePdf env filePath s).1.currentPdfChunks = s.currentPdfChunks ∧
    (preparePdf env filePath s).1.currentPdfText = s.currentPdfText ∧
    (preparePdf env filePath s).1.settings.lastProcessedFile =
      s.settings.lastProcessedFile ∧
    (preparePdf env filePath s).1.cache = s.cache := by
  have hmain : preparePdf env filePath s = (s, []) := by
    unfold preparePdf
    simp [h]
  refine ⟨hmain, ?_, ?_, ?_, ?_⟩ <;> rw [hmain]

/-- A closed instance of C1: with the flag already set, a run request on
a concrete state is a no-op. -/
theorem reentrancy_guard_witness :
    preparePdf ⟨"text", fun _ => none, false, false⟩ "other.pdf"
        ⟨⟨"key", "m", "e", some "first.pdf", 10⟩, "t", [], true, fun _ => none⟩ =
      (⟨⟨"key", "m", "e", some "first.pdf", 10⟩, "t", [], true, fun _ => none⟩, []) :=
  (reentrancy_guard _ _ _ rfl).1

lemma preparePdfTry_no_error (env : PdfEnv) (key : String) (s : PluginState) :
    ProcState.error ∉ (preparePdfTry env key s).2.1 := by
  by_cases h1 : env.readFails
  · simp [preparePdfTry, h1]
  · by_cases h2 : (splitIntoChunks env.pdfText).isEmpty
    · simp [preparePdfTry, h1, h2]
    · by_cases h3 : s.settings.selectedEmbeddingModel = ""
      · simp [preparePdfTry, h1, h2, h3]
      · by_cases h4 :
          (embedBatches env.embed s.settings.concurrency (splitIntoChunks env.pdfText)).1.isEmpty
        · simp [preparePdfTry, h1, h2, h3, h4]
        · by_cases h5 : env.writeFails
          · simp [preparePdfTry, h1, h2, h3, h4, h5]
          · simp [preparePdfTry, h1, h2, h3, h4, h5]

lemma preparePdfBody_spec (env : PdfEnv) (key : String) (s : PluginState)
    (emitted : List ProcState) (herr : ProcState.error ∉ emitted) :
    (preparePdfBody env key s emitted).1.isProcessing = false ∧
    (preparePdfBody env key s emitted).2.getLast? = some .complete ∧
    (ProcState.error ∈ (preparePdfBody env key s emitted).2 →
      ∃ pre, (preparePdfBody env key s emitted).2 = pre ++ [.error, .complete]) := by
  unfold preparePdfBody
  cases ht : (preparePdfTry env key s).2.2 with
  | true =>
    simp only [ht, if_true]
    refine ⟨trivial, ?_, ?_⟩
    · have hsplit :
          emitted ++ ProcState.reading :: (preparePdfTry env key s).2.1 ++ [.error, .complete] =
          (emitted ++ ProcState.reading :: (preparePdfTry env key s).2.1 ++
            [ProcState.error]) ++ [.complete] := by
        simp
      rw [hsplit, List.getLast?_concat]
    · intro _
      exact ⟨emitted ++ ProcState.reading :: (preparePdfTry env key s).2.1, by simp⟩
  | false =>
    simp only [ht, Bool.false_eq_true, if_false]
    refine ⟨trivial, ?_, ?_⟩
    · have hsplit :
          emitted ++ ProcState.reading :: (preparePdfTry env key s).2.1 ++ [.complete] =
          (emitted ++ ProcState.reading :: (preparePdfTry env key s).2.1) ++ [.complete] := by
        simp
      rw [hsplit, List.getLast?_concat]
    · intro hmem
      simp only [List.mem_append, List.mem_cons] at hmem
      rcases hmem with (hin | hr | hin) | hc
      · exact absurd hin herr
      · exact absurd hr (by simp)
      · exact absurd hin (preparePdfTry_no_error env key s)
      · exact absurd hc (by simp)

/-- Claim C2 (guaranteed-release semantics): every `preparePdf` run that
passes the re-entrancy and API-key guards ends with `isProcessing`
cleared and with a final `complete` emission, whatever the outcome
(cache hit, corrupt cache, zero chunks, success, injected read or write
rejection, missing embedding model); whenever an `error` state is
emitted, it comes immediately before that final `complete`. -/
theorem guaranteed_release (env : PdfEnv) (filePath : String) (s : PluginState)
    (h₁ : s.isProcessing = false) (h₂ : s.settings.apiKey ≠ "") :
    (preparePdf env filePath s).1.isProcessing = false ∧
    (preparePdf env filePath s).2.getLast? = some .complete ∧
    (ProcState.error ∈ (preparePdf env filePath s).2 →
      ∃ pre, (preparePdf env filePath s).2 = pre ++ [.error, .complete]) := by
  unfold preparePdf
  simp only [h₁, Bool.false_eq_true, if_false, h₂, ite_false]
  cases hc : s.cache (cacheFileName filePath) with
  | some content =>
    simp only
    cases hp : parseCache content with
    | some chunks =>
      refine ⟨rfl, rfl, ?_⟩
      intro hmem
      simp at hmem
    | none =>
      exact preparePdfBody_spec env (cacheFileName filePath) _ _ (by simp)
  | none =>
    exact preparePdfBody_spec env (cacheFileName filePath) _ _ (by simp)

/-- A closed instance of C2: a run over an empty cache and an empty
parsed text (zero chunks) releases the flag and ends in `complete`. -/
theorem guaranteed_release_witness :
    (preparePdf ⟨"", fun _ => none, false, false⟩ "doc.pdf"
        ⟨⟨"key", "m", "e", none, 10⟩, "", [], false, fun _ => none⟩).1.isProcessing = false ∧
    (preparePdf ⟨"", fun _ => none, false, false⟩ "doc.pdf"
        ⟨⟨"key", "m", "e", none, 10⟩, "", [], false, fun _ => none⟩).2.getLast? =
      some .complete :=
  ⟨(guaranteed_release _ _ _ rfl (by decide)).1,
   (guaranteed_release _ _ _ rfl (by decide)).2.1⟩

/- ===================== Batch ordering and progress: C8 ===================== -/

/-- Extract the `(progress, total)` payload of an `embedding` emission. -/
def embProg : ProcState → Option (Nat × Nat)
  | .embedding p t => some (p, t)
  | _ => none

lemma batchLoopGo_chunks (embed : String → Option (List ℚ)) (b total : Nat) :
    ∀ (fuel : Nat) (l : List RawChunk) (processed : Nat),
    (batchLoopGo embed b total fuel l processed).1 =
      ((toBatches b fuel l).map (fun batch => batch.filterMap (embedChunk embed))).flatten := by
  intro fuel
  induction fuel with
  | zero => intro l processed; simp [batchLoopGo, toBatches]
  | succ f ih =>
    intro l processed
    cases l with
    | nil => simp [batchLoopGo, toBatches]
    | cons c cs => simp [batchLoopGo, toBatches, ih]

lemma batchLoopGo_totals (embed : String → Option (List ℚ)) (b total : Nat) :
    ∀ (fuel : Nat) (l : List RawChunk) (processed : Nat) (e : Nat × Nat),
    e ∈ (batchLoopGo embed b total fuel l processed).2 → e.2 = total := by
  intro fuel
  induction fuel with
  | zero => intro l processed e h; simp [batchLoopGo] at h
  | succ f ih =>
    intro l processed e h
    cases l with
    | nil => simp [batchLoopGo] at h
    | cons c cs =>
      simp only [batchLoopGo, List.mem_cons] at h
      rcases h with he | he
      · rw [he]
      · exact ih _ _ e he

lemma batchLoopGo_progress (embed : String → Option (List ℚ)) (b total : Nat)
    (hb : 1 ≤ b) :
    ∀ (fuel : Nat) (l : List RawChunk) (processed : Nat),
    l.length < fuel → l ≠ [] →
    ∃ ps, (batchLoopGo embed b total fuel l processed).2.map Prod.fst = processed :: ps ∧
      List.Chain' (· < ·) (processed :: ps) ∧
      (∀ x ∈ processed :: ps, x < processed + l.length) := by
  intro fuel
  induction fuel with
  | zero => intro l processed h; omega
  | succ f ih =>
    intro l processed hlen hne
    cases l with
    | nil => exact absurd rfl hne
    | cons c cs =>
      by_cases hrest : (c :: cs).drop b = []
      · have h2 : (batchLoopGo embed b total f ((c :: cs).drop b)
            (processed + ((c :: cs).take b).length)).2 = [] := by
          rw [hrest]
          cases f <;> rfl
        simp only [List.length_take, List.length_cons] at h2
        refine ⟨[], by simp [batchLoopGo, h2], by simp, ?_⟩
        intro x hx
        simp only [List.mem_singleton] at hx
        subst hx
        simp only [List.length_cons]
        omega
      · have hdroplen : ((c :: cs).drop b).length = (c :: cs).length - b := by
          simp
        have hblt : b < (c :: cs).length := by
          by_contra hcon
          push_neg at hcon
          have : ((c :: cs).drop b).length = 0 := by omega
          exact hrest (List.eq_nil_of_length_eq_zero this)
        have htake : ((c :: cs).take b).length = b := by
          simp only [List.length_take]
          omega
        obtain ⟨ps, hmap, hchain, hbound⟩ :=
          ih ((c :: cs).drop b) (processed + ((c :: cs).take b).length)
            (by omega) hrest
        refine ⟨(processed + ((c :: cs).take b).length) :: ps, ?_, ?_, ?_⟩
        · simp only [List.length_take, List.length_cons] at hmap ⊢
          simp [batchLoopGo, hmap]
        · rw [List.chain'_cons]
          exact ⟨by omega, hchain⟩
        · intro x hx
          rcases List.mem_cons.mp hx with hx0 | hxtail
          · subst hx0
            simp only [List.length_cons]
            omega
          · have := hbound x hxtail
            omega

lemma embedBatches_chunks (embed : String → Option (List ℚ)) (b : Nat) (l : List RawChunk) :
    (embedBatches embed b l).1 =
      ((batchesOf b l).map (fun batch => batch.filterMap (embedChunk embed))).flatten :=
  batchLoopGo_chunks embed b l.length (l.length + 1) l 0

lemma embedBatches_progress (embed : String → Option (List ℚ)) (b : Nat) (l : List RawChunk)
    (hb : 1 ≤ b) (hne : l ≠ []) :
    List.Chain' (· < ·) ((embedBatches embed b l).2.map Prod.fst) ∧
    (embedBatches embed b l).2.head? = some (0, l.length) ∧
    (embedBatches embed b l).2.getLast? = some (l.length, l.length) ∧
    (∀ e ∈ (embedBatches embed b l).2, e.2 = l.length) := by
  obtain ⟨ps, hmap, hchain, hbound⟩ :=
    batchLoopGo_progress embed b l.length hb (l.length + 1) l 0 (by omega) hne
  have hloop := batchLoopGo_totals embed b l.length (l.length + 1) l 0
  unfold embedBatches
  simp only
  have hnil : (batchLoopGo embed b l.length (l.length + 1) l 0).2 ≠ [] := by
    intro hcon
    rw [hcon] at hmap
    simp at hmap
  constructor
  · rw [List.map_append]
    refine List.Chain'.append ?_ ?_ ?_
    · rw [hmap]; exact hchain
    · simp
    · intro x hx y hy
      simp only [List.map_cons, List.map_nil, List.head?_cons, Option.mem_def,
        Option.some.injEq] at hy
      subst hy
      have hxmem : x ∈ (batchLoopGo embed b l.length (l.length + 1) l 0).2.map Prod.fst :=
        List.mem_of_mem_getLast? hx
      rw [hmap] at hxmem
      have := hbound x hxmem
      omega
  · constructor
    · cases hh : (batchLoopGo embed b l.length (l.length + 1) l 0).2 with
      | nil => exact absurd hh hnil
      | cons e tl =>
        have he1 : e.1 = 0 := by
          rw [hh] at hmap
          simp only [List.map_cons, List.cons.injEq] at hmap
          exact hmap.1
        have he2 : e.2 = l.length := hloop e (by rw [hh]; exact List.mem_cons_self e tl)
        have hee : e = (0, l.length) := Prod.ext he1 he2
        simp [hee]
    · constructor
      · exact List.getLast?_concat _
      · intro e he
        rcases List.mem_append.mp he with hin | hin
        · exact hloop e hin
        · simp only [List.mem_singleton] at hin
          rw [hin]

lemma filterMap_embProg_embedding (ps : List (Nat × Nat)) :
    List.filterMap (embProg ∘ fun pr => ProcState.embedding pr.1 pr.2) ps = ps := by
  induction ps with
  | nil => rfl
  | cons p t ih => simp [embProg, ih]

lemma preparePdf_cache_miss (env : PdfEnv) (filePath : String) (s : PluginState)
    (h₁ : s.isProcessing = false) (h₂ : s.settings.apiKey ≠ "")
    (hcache : s.cache (cacheFileName filePath) = none)
    (hread : env.readFails = false)
    (hchunks : splitIntoChunks env.pdfText ≠ [])
    (hmodel : s.settings.selectedEmbeddingModel ≠ "") :
    (preparePdf env filePath s).1.currentPdfChunks =
      (embedBatches env.embed s.settings.concurrency (splitIntoChunks env.pdfText)).1 ∧
    (preparePdf env filePath s).2.filterMap embProg =
      (embedBatches env.embed s.settings.concurrency (splitIntoChunks env.pdfText)).2 := by
  have hchunksb : (splitIntoChunks env.pdfText).isEmpty = false := by
    cases hsp : splitIntoChunks env.pdfText with
    | nil => exact absurd hsp hchunks
    | cons a t => rfl
  have hstep : preparePdf env filePath s =
      preparePdfBody env (cacheFileName filePath)
        { s with settings := { s.settings with lastProcessedFile := some filePath },
                 isProcessing := true }
        [.searching_cache] := by
    unfold preparePdf
    simp [h₁, h₂, hcache]
  rw [hstep]
  unfold preparePdfBody preparePdfTry
  simp only [hread, Bool.false_eq_true, if_false, hchunksb, hmodel, ite_false]
  by_cases hempty :
      (embedBatches env.embed s.settings.concurrency (splitIntoChunks env.pdfText)).1.isEmpty
  · simp only [hempty, if_true]
    refine ⟨by trivial, ?_⟩
    simp [embProg, List.filterMap_append, List.filterMap_map, filterMap_embProg_embedding]
  · simp only [hempty, Bool.false_eq_true, if_false]
    cases hw : env.writeFails with
    | true =>
      simp only [if_true]
      refine ⟨by trivial, ?_⟩
      simp [embProg, List.filterMap_append, List.filterMap_map, filterMap_embProg_embedding]
    | false =>
      simp only [Bool.false_eq_true, if_false]
      refine ⟨by trivial, ?_⟩
      simp [embProg, List.filterMap_append, List.filterMap_map, filterMap_embProg_embedding]

/-- Claim C8 (batch ordering and progress monotonicity): in a cache-miss
run with batch size ≥ 1 over at least one chunk (and an embedding model
selected, so the embedding stage runs), the published chunk set is the
in-order concatenation of each batch's successful embeddings — batch N
is fully collected and appended before batch N+1 contributes — the
progress values of successive `embedding` emissions are strictly
increasing starting at 0, every such emission carries the chunk count as
its total, and the final `embedding` emission has progress equal to that
total. -/
theorem batch_ordering_progress (env : PdfEnv) (filePath : String) (s : PluginState)
    (h₁ : s.isProcessing = false) (h₂ : s.settings.apiKey ≠ "")
    (hcache : s.cache (cacheFileName filePath) = none)
    (hread : env.readFails = false)
    (hchunks : splitIntoChunks env.pdfText ≠ [])
    (hmodel : s.settings.selectedEmbeddingModel ≠ "")
    (hb : 1 ≤ s.settings.concurrency) :
    (preparePdf env filePath s).1.currentPdfChunks =
      ((batchesOf s.settings.concurrency (splitIntoChunks env.pdfText)).map
        (fun batch => batch.filterMap (embedChunk env.embed))).flatten ∧
    List.Chain' (· < ·)
      (((preparePdf env filePath s).2.filterMap embProg).map Prod.fst) ∧
    ((preparePdf env filePath s).2.filterMap embProg).head? =
      some (0, (splitIntoChunks env.pdfText).length) ∧
    ((preparePdf env filePath s).2.filterMap embProg).getLast? =
      some ((splitIntoChunks env.pdfText).length, (splitIntoChunks env.pdfText).length) ∧
    (∀ e ∈ (preparePdf env filePath s).2.filterMap embProg,
      e.2 = (splitIntoChunks env.pdfText).length) := by
  obtain ⟨hchunksEq, hemitsEq⟩ :=
    preparePdf_cache_miss env filePath s h₁ h₂ hcache hread hchunks hmodel
  obtain ⟨hchain, hhead, hlast, htot⟩ :=
    embedBatches_progress env.embed s.settings.concurrency (splitIntoChunks env.pdfText)
      hb hchunks
  rw [hchunksEq, hemitsEq]
  exact ⟨embedBatches_chunks env.embed s.settings.concurrency (splitIntoChunks env.pdfText),
    hchain, hhead, hlast, htot⟩

/-- A closed instance of C8: one 150-character paragraph on page 2, an
embedding oracle that answers `[1]`, batch size 10, empty cache. -/
theorem batch_ordering_progress_witness :
    ((preparePdf ⟨⟨'[' :: 'P' :: 'a' :: 'g' :: 'e' :: ' ' :: '2' :: ']' :: '\n' ::
          List.replicate 150 'a'⟩, fun _ => some [1], false, false⟩ "doc.pdf"
        ⟨⟨"key", "m", "e", none, 10⟩, "", [], false, fun _ => none⟩).2.filterMap
          embProg).head? = some (0, 1) ∧
    ((preparePdf ⟨⟨'[' :: 'P' :: 'a' :: 'g' :: 'e' :: ' ' :: '2' :: ']' :: '\n' ::
          List.replicate 150 'a'⟩, fun _ => some [1], false, false⟩ "doc.pdf"
        ⟨⟨"key", "m", "e", none, 10⟩, "", [], false, fun _ => none⟩).2.filterMap
          embProg).getLast? = some (1, 1) := by
  have hchunks : splitIntoChunks
      ⟨'[' :: 'P' :: 'a' :: 'g' :: 'e' :: ' ' :: '2' :: ']' :: '\n' ::
        List.replicate 150 'a'⟩ ≠ [] := by decide
  have hlen : (splitIntoChunks
      ⟨'[' :: 'P' :: 'a' :: 'g' :: 'e' :: ' ' :: '2' :: ']' :: '\n' ::
        List.replicate 150 'a'⟩).length = 1 := by decide
  have h := batch_ordering_progress
    ⟨⟨'[' :: 'P' :: 'a' :: 'g' :: 'e' :: ' ' :: '2' :: ']' :: '\n' ::
        List.replicate 150 'a'⟩, fun _ => some [1], false, false⟩ "doc.pdf"
    ⟨⟨"key", "m", "e", none, 10⟩, "", [], false, fun _ => none⟩
    rfl (by decide) rfl rfl hchunks (by decide) (by decide)
  rw [hlen] at h
  exact ⟨h.2.2.1, h.2.2.2.1⟩

/- ===================== Cache round-trip lemmas (C9) ===================== -/

lemma skipWs_ws_append (w r : List Char) (hw : ∀ c ∈ w, isJsonWs c = true) :
    skipWs (w ++ r) = skipWs r := by
  induction w with
  | nil => rfl
  | cons a t ih =>
    have ha : isJsonWs a = true := hw a (List.mem_cons_self a t)
    simp only [List.cons_append, skipWs, List.dropWhile_cons, ha, if_true]
    exact ih (fun c hc => hw c (List.mem_cons_of_mem a hc))

lemma nlIndent_ws (n : Nat) : ∀ c ∈ nlIndent n, isJsonWs c = true := by
  intro c hc
  rcases List.mem_cons.mp hc with h | h
  · subst h; decide
  · rw [List.eq_of_mem_replicate h]; decide

lemma skipWs_nlIndent (n : Nat) (r : List Char) :
    skipWs (nlIndent n ++ r) = skipWs r :=
  skipWs_ws_append _ r (nlIndent_ws n)

lemma skipWs_not_ws (c : Char) (r : List Char) (hc : isJsonWs c = false) :
    skipWs (c :: r) = c :: r := by
  simp [skipWs, List.dropWhile_cons, hc]

lemma expectCh_hit (c : Char) (w r : List Char) (hw : ∀ x ∈ w, isJsonWs x = true)
    (hc : isJsonWs c = false) :
    expectCh c (w ++ c :: r) = some r := by
  unfold expectCh
  rw [skipWs_ws_append w _ hw, skipWs_not_ws c r hc]
  simp

lemma hexVal_hexDigit : ∀ k, k < 16 → hexVal (hexDigit k) = some k := by decide

lemma digitCh_toNat : ∀ k, k ≤ 9 → (digitCh k).toNat = 48 + k := by decide

lemma isDigitCh_digitCh : ∀ k, k ≤ 9 → isDigitCh (digitCh k) = true := by decide

lemma isJsonWs_of_digit (c : Char) (hc : isDigitCh c = true) : isJsonWs c = false := by
  unfold isDigitCh at hc
  unfold isJsonWs
  simp only [Bool.and_eq_true, decide_eq_true_eq] at hc
  simp only [Bool.or_eq_false_iff, beq_eq_false_iff_ne, ne_eq]
  omega

lemma toDecGo_all_digits : ∀ (fuel n : Nat) (c : Char),
    c ∈ toDecGo fuel n → isDigitCh c = true := by
  intro fuel
  induction fuel with
  | zero => intro n c hc; simp [toDecGo] at hc
  | succ f ih =>
    intro n c hc
    unfold toDecGo at hc
    by_cases h : n < 10
    · rw [if_pos h] at hc
      simp only [List.mem_singleton] at hc
      subst hc
      exact isDigitCh_digitCh n (by omega)
    · rw [if_neg h] at hc
      rcases List.mem_append.mp hc with hin | hin
      · exact ih _ c hin
      · simp only [List.mem_singleton] at hin
        subst hin
        exact isDigitCh_digitCh _ (by omega)

lemma foldl_digits_zeros : ∀ (zs : List Char) (v : Nat), (∀ c ∈ zs, c = '0') →
    List.foldl (fun a c => 10 * a + (c.toNat - 48)) v zs = v * 10 ^ zs.length := by
  intro zs
  induction zs with
  | nil => intro v _; simp
  | cons z t ih =>
    intro v hz
    have hz0 : z = '0' := hz z (List.mem_cons_self z t)
    subst hz0
    simp only [List.foldl_cons, List.length_cons]
    rw [ih _ (fun c hc => hz c (List.mem_cons_of_mem _ hc))]
    have h0 : ('0'.toNat - 48) = 0 := by decide
    rw [h0]
    ring

lemma digitsToNat_append_zeros (xs zs : List Char) (hz : ∀ c ∈ zs, c = '0') :
    digitsToNat (xs ++ zs) = digitsToNat xs * 10 ^ zs.length := by
  unfold digitsToNat
  rw [List.foldl_append]
  exact foldl_digits_zeros zs _ hz

lemma toDecGo_val : ∀ (fuel n : Nat), n < 10 ^ fuel →
    digitsToNat (toDecGo fuel n) = n := by
  intro fuel
  induction fuel with
  | zero => intro n h; interval_cases n; rfl
  | succ f ih =>
    intro n h
    unfold toDecGo
    by_cases hn : n < 10
    · rw [if_pos hn]
      unfold digitsToNat
      simp only [List.foldl_cons, List.foldl_nil]
      rw [digitCh_toNat n (by omega)]
      omega
    · rw [if_neg hn]
      have hdiv : n / 10 < 10 ^ f := by
        rw [pow_succ] at h
        omega
      unfold digitsToNat
      rw [List.foldl_append]
      have hleft := ih (n / 10) hdiv
      unfold digitsToNat at hleft
      rw [hleft]
      simp only [List.foldl_cons, List.foldl_nil]
      rw [digitCh_toNat (n % 10) (by omega)]
      omega

lemma toDec_val (n : Nat) : digitsToNat (toDec n) = n := by
  unfold toDec
  refine toDecGo_val (n + 1) n ?_
  calc n < 10 ^ n := Nat.lt_pow_self (by norm_num) n
    _ ≤ 10 ^ (n + 1) := Nat.pow_le_pow_right (by norm_num) (by omega)

lemma toDec_ne_nil (n : Nat) : toDec n ≠ [] := by
  unfold toDec toDecGo
  by_cases h : n < 10
  · simp [h]
  · simp [h]

lemma toDec_all_digits (n : Nat) : ∀ c ∈ toDec n, isDigitCh c = true :=
  fun c hc => toDecGo_all_digits _ n c hc

lemma takeWhile_all_append (p : Char → Bool) (w r : List Char)
    (hw : ∀ c ∈ w, p c = true) :
    (w ++ r).takeWhile p = w ++ r.takeWhile p := by
  induction w with
  | nil => rfl
  | cons a t ih =>
    have ha := hw a (List.mem_cons_self a t)
    simp only [List.cons_append, List.takeWhile_cons, ha, if_true]
    rw [ih (fun c hc => hw c (List.mem_cons_of_mem a hc))]

lemma dropWhile_all_append (p : Char → Bool) (w r : List Char)
    (hw : ∀ c ∈ w, p c = true) :
    (w ++ r).dropWhile p = r.dropWhile p := by
  induction w with
  | nil => rfl
  | cons a t ih =>
    have ha := hw a (List.mem_cons_self a t)
    simp only [List.cons_append, List.dropWhile_cons, ha, if_true]
    exact ih (fun c hc => hw c (List.mem_cons_of_mem a hc))

lemma parseDigits_run (ds rest : List Char) (hds : ∀ c ∈ ds, isDigitCh c = true)
    (hne : ds ≠ [])
    (hstop : ∀ c, rest.head? = some c → isDigitCh c = false) :
    parseDigits (ds ++ rest) = some (ds, rest) := by
  have htake : (ds ++ rest).takeWhile isDigitCh = ds ∧
      (ds ++ rest).dropWhile isDigitCh = rest := by
    cases rest with
    | nil =>
      constructor
      · rw [takeWhile_all_append _ _ _ hds]
        simp
      · rw [dropWhile_all_append _ _ _ hds]
        simp
    | cons c r =>
      have hc : isDigitCh c = false := hstop c rfl
      constructor
      · rw [takeWhile_all_append _ _ _ hds]
        simp [List.takeWhile_cons, hc]
      · rw [dropWhile_all_append _ _ _ hds]
        simp [List.dropWhile_cons, hc]
  unfold parseDigits
  rw [htake.1, htake.2]
  simp only
  rw [if_neg (by simpa using hne)]

lemma decodeStrBody_encode : ∀ (s r : List Char),
    decodeStrBody (s.flatMap encodeChar ++ '"' :: r) = some (s, r) := by
  intro s
  induction s with
  | nil =>
    intro r
    show decodeStrBody ('"' :: r) = some ([], r)
    unfold decodeStrBody
    simp
  | cons c cs ih =>
    intro r
    simp only [List.flatMap_cons, List.append_assoc]
    have ih' := ih r
    generalize hX : cs.flatMap encodeChar ++ '"' :: r = X at ih' ⊢
    by_cases h1 : c = '"'
    · subst h1
      rw [show encodeChar '"' = ['\\', '"'] from by decide]
      simp only [List.cons_append, List.nil_append]
      unfold decodeStrBody
      simp +decide [escDecode, ih']
    · by_cases h2 : c = '\\'
      · subst h2
        rw [show encodeChar '\\' = ['\\', '\\'] from by decide]
        simp only [List.cons_append, List.nil_append]
        unfold decodeStrBody
        simp +decide [escDecode, ih']
      · by_cases h3 : c = '\x08'
        · subst h3
          rw [show encodeChar '\x08' = ['\\', 'b'] from by decide]
          simp only [List.cons_append, List.nil_append]
          unfold decodeStrBody
          simp +decide [escDecode, ih']
        · by_cases h4 : c = '\x0c'
          · subst h4
            rw [show encodeChar '\x0c' = ['\\', 'f'] from by decide]
            simp only [List.cons_append, List.nil_append]
            unfold decodeStrBody
            simp +decide [escDecode, ih']
          · by_cases h5 : c = '\n'
            · subst h5
              rw [show encodeChar '\n' = ['\\', 'n'] from by decide]
              simp only [List.cons_append, List.nil_append]
              unfold decodeStrBody
              simp +decide [escDecode, ih']
            · by_cases h6 : c = '\r'
              · subst h6
                rw [show encodeChar '\r' = ['\\', 'r'] from by decide]
                simp only [List.cons_append, List.nil_append]
                unfold decodeStrBody
                simp +decide [escDecode, ih']
              · by_cases h7 : c = '\t'
                · subst h7
                  rw [show encodeChar '\t' = ['\\', 't'] from by decide]
                  simp only [List.cons_append, List.nil_append]
                  unfold decodeStrBody
                  simp +decide [escDecode, ih']
                · by_cases h8 : c.toNat < 0x20
                  · have hmem : c ∈ (List.range 32).map Char.ofNat :=
                      List.mem_map.mpr
                        ⟨c.toNat, List.mem_range.mpr (by omega), Char.ofNat_toNat c⟩
                    fin_cases hmem <;> first
                      | exact absurd (by decide) h3
                      | exact absurd (by decide) h4
                      | exact absurd (by decide) h5
                      | exact absurd (by decide) h6
                      | exact absurd (by decide) h7
                      | simp +decide [encodeChar, decodeStrBody, escDecode, hexVal,
                          hexDigit, ih']
                  · have henc : encodeChar c = [c] := by
                      unfold encodeChar
                      rw [if_neg h1, if_neg h2, if_neg h3, if_neg h4, if_neg h5, if_neg h6,
                        if_neg h7, if_neg h8]
                    rw [henc]
                    show decodeStrBody (c :: X) = some (c :: cs, r)
                    unfold decodeStrBody
                    rw [if_neg h1, if_neg h2, if_neg h8, ih']
                    rfl
